import Mathlib

/-!
Verification of the crowdfunding escrow engine of the Celo-dApp repository.

The repository ships a Hardhat deploy script and a test suite
(`packages/hardhat/deploy/00-deploy.js`) exercising a `CrowdFund` registry
contract and per-campaign `Project` contracts.  The Solidity sources of those
contracts are not part of the checked-out tree, so the engine itself is
modelled from the specification, keeping the interface shape the tests use:
a registry-level `startProject` (with an optional trailing minimum amount),
a registry-level `fund(projectAddress, amount)` that spends the allowance
granted to the registry, per-project `isFinalized` / `raisedAmount` views and
a creator-only release (`transferFunds`).
-/

/-- Account identities and contract addresses are modelled as naturals. -/
abbrev Addr := Nat

/-- Modelled from the spec: the external Token Interface state (the spec's
"fungible-token implementation" is out of scope and assumed correct): a
balance per account and an allowance per (owner, spender) pair. -/
structure TokenState where
  balances : Addr → Nat
  allowance : Addr → Addr → Nat

/-- Modelled from the spec: `transferFrom(payer, payee, amount)` executed by
`spender`; moves funds on the payer's pre-authorized allowance, failing
(returning `none`) when the allowance or the balance is insufficient. -/
def TokenState.transferFrom (t : TokenState) (spender payer payee : Addr)
    (amount : Nat) : Option TokenState :=
  if amount ≤ t.allowance payer spender ∧ amount ≤ t.balances payer then
    let b1 : Addr → Nat := fun a => if a = payer then t.balances a - amount else t.balances a
    some { balances := fun a => if a = payee then b1 a + amount else b1 a
           allowance := fun o s =>
             if o = payer ∧ s = spender then t.allowance o s - amount else t.allowance o s }
  else none

/-- Modelled from the spec: `transfer(recipient, amount)` moving funds out of
`sender`'s own custody; fails when the balance is insufficient. -/
def TokenState.transfer (t : TokenState) (sender recipient : Addr)
    (amount : Nat) : Option TokenState :=
  if amount ≤ t.balances sender then
    let b1 : Addr → Nat := fun a => if a = sender then t.balances a - amount else t.balances a
    some { balances := fun a => if a = recipient then b1 a + amount else b1 a
           allowance := t.allowance }
  else none

/-- Modelled from the spec: one fundraising campaign (the tests' `Project`
contract): metadata, goal/minimum/deadline, the running total, the
per-contributor ledger and the finalized/released flags. -/
structure Campaign where
  addr : Addr
  creatorIdentity : Addr
  creatorName : String
  title : String
  description : String
  imageLink : String
  token : Addr
  goalAmount : Nat
  minimumAmount : Nat
  raisingDeadline : Nat
  raisedAmount : Nat
  contributions : List (Addr × Nat)
  isFinalized : Bool
  fundsReleased : Bool
deriving DecidableEq

/-- Cumulative contribution recorded for `who` in the ledger. -/
def contribOf : List (Addr × Nat) → Addr → Nat
  | [], _ => 0
  | (a, v) :: rest, who => if a = who then v else contribOf rest who

/-- Add an accepted contribution to the ledger: bump the existing cumulative
entry of the contributor, or append a fresh entry. -/
def addContribution : List (Addr × Nat) → Addr → Nat → List (Addr × Nat)
  | [], who, amt => [(who, amt)]
  | (a, v) :: rest, who, amt =>
      if a = who then (a, v + amt) :: rest else (a, v) :: addContribution rest who amt

/-- Modelled from the spec: lazy finalization — observed at time `now`, the
campaign's finalized flag is set once `now ≥ raisingDeadline`, and a flag that
is already `true` never reverts. -/
def Campaign.finalizeAt (c : Campaign) (now : Nat) : Campaign :=
  { c with isFinalized := c.isFinalized || decide (c.raisingDeadline ≤ now) }

/-- The spec's error taxonomy (§7). -/
inductive CfError where
  | invalidParameters
  | deadlinePassed
  | belowMinimum
  | transferFailed
  | notFinalized
  | alreadyReleased
  | unauthorized
deriving DecidableEq

/-- Modelled from the spec: the world of one deployment: ambient time, the
registry's own address, a fresh-address counter for new campaign contracts,
the token ledger and the registry's append-only campaign list (a handle is an
index into this list). -/
structure World where
  time : Nat
  registryAddr : Addr
  nextAddr : Addr
  token : TokenState
  campaigns : List Campaign

/-- Modelled from the spec: `createCampaign` / the tests' `startProject`:
constructs a campaign owned by the caller with
`raisingDeadline = now + durationInDays * 86400`, minimum defaulting to zero
when the optional trailing argument is omitted, and appends its handle to the
registry list.  Fails with `InvalidParameters` on a zero duration or goal. -/
def startProject (w : World) (caller tok : Addr)
    (creatorName title description imageLink : String)
    (durationInDays goalAmount : Nat) (minOpt : Option Nat) :
    Except CfError (World × Addr) :=
  if durationInDays = 0 ∨ goalAmount = 0 then .error .invalidParameters
  else
    let c : Campaign := {
      addr := w.nextAddr
      creatorIdentity := caller
      creatorName := creatorName
      title := title
      description := description
      imageLink := imageLink
      token := tok
      goalAmount := goalAmount
      minimumAmount := minOpt.getD 0
      raisingDeadline := w.time + durationInDays * 86400
      raisedAmount := 0
      contributions := []
      isFinalized := false
      fundsReleased := false }
    .ok ({ w with nextAddr := w.nextAddr + 1, campaigns := w.campaigns ++ [c] }, c.addr)

/-- Modelled from the spec: `fund` — the registry-level funding entry point
(the tests call `crowdFund.fund(projectAddress, amount)` after approving the
registry).  Rejects late calls with `DeadlinePassed`, small calls with
`BelowMinimum`, then moves `amount` from the caller to the campaign's custody
on the allowance granted to the registry; on success the per-contributor
ledger and `raisedAmount` are updated together.  Any failure leaves every
piece of state untouched. -/
def fund (w : World) (caller : Addr) (h : Nat) (amount : Nat) :
    Except CfError World :=
  match w.campaigns[h]? with
  | none => .error .invalidParameters
  | some c =>
    if c.raisingDeadline ≤ w.time then .error .deadlinePassed
    else if amount < c.minimumAmount then .error .belowMinimum
    else match w.token.transferFrom w.registryAddr caller c.addr amount with
      | none => .error .transferFailed
      | some t' =>
        let c' := { c with
          raisedAmount := c.raisedAmount + amount
          contributions := addContribution c.contributions caller amount }
        .ok { w with token := t', campaigns := w.campaigns.set h c' }

/-- Modelled from the spec: `release` (the tests' `transferFunds`): after the
lazy finalization check, fails with `NotFinalized` before the deadline, with
`AlreadyReleased` on a second call, with `Unauthorized` for a non-creator;
otherwise moves `raisedAmount` out of campaign custody to the creator and sets
`fundsReleased` atomically with the transfer's success. -/
def release (w : World) (caller : Addr) (h : Nat) : Except CfError World :=
  match w.campaigns[h]? with
  | none => .error .invalidParameters
  | some c0 =>
    if (c0.finalizeAt w.time).isFinalized = false then .error .notFinalized
    else if (c0.finalizeAt w.time).fundsReleased then .error .alreadyReleased
    else if caller ≠ (c0.finalizeAt w.time).creatorIdentity then .error .unauthorized
    else match w.token.transfer (c0.finalizeAt w.time).addr
        (c0.finalizeAt w.time).creatorIdentity (c0.finalizeAt w.time).raisedAmount with
      | none => .error .transferFailed
      | some t' =>
        .ok { w with
                token := t',
                campaigns := w.campaigns.set h
                  { c0.finalizeAt w.time with fundsReleased := true } }

/-- Modelled from the spec: explicit `finalize()`: callable by anyone, sets
the flag once `now ≥ raisingDeadline` and is otherwise a no-op. -/
def finalizeOp (w : World) (h : Nat) : World :=
  match w.campaigns[h]? with
  | none => w
  | some c => { w with campaigns := w.campaigns.set h (c.finalizeAt w.time) }

/-- Modelled from the spec: the `isFinalized` view, observed lazily: reports
the stored flag updated by the current-time check. -/
def isFinalizedQuery (w : World) (h : Nat) : Option Bool :=
  (w.campaigns[h]?).map fun c => (c.finalizeAt w.time).isFinalized

/-- The registry's discovery view (the tests' `returnProjects`): all campaign
handles, oldest first. -/
def returnProjects (w : World) : List Addr :=
  w.campaigns.map Campaign.addr

/-- One external call (or the ambient clock advancing) in a trace. -/
inductive Op where
  | advance (d : Nat)
  | approve (owner spender amount : Nat)
  | start (caller tok : Addr) (cn ti de im : String) (days goal : Nat) (minOpt : Option Nat)
  | fundOp (caller h amount : Nat)
  | releaseOp (caller h : Nat)
  | finalize (h : Nat)

/-- Serialized all-or-nothing execution of one call: a failing call has no
observable effect on the world. -/
def step (w : World) : Op → World
  | .advance d => { w with time := w.time + d }
  | .approve o s a =>
      { w with token := { w.token with
          allowance := fun x y => if x = o ∧ y = s then a else w.token.allowance x y } }
  | .start c t cn ti de im days goal minOpt =>
      match startProject w c t cn ti de im days goal minOpt with
      | .ok p => p.1
      | .error _ => w
  | .fundOp c h a =>
      match fund w c h a with
      | .ok w' => w'
      | .error _ => w
  | .releaseOp c h =>
      match release w c h with
      | .ok w' => w'
      | .error _ => w
  | .finalize h => finalizeOp w h

/-- Run a whole sequence of external calls. -/
def trace (w : World) (ops : List Op) : World :=
  ops.foldl step w

/-- A freshly deployed world: no campaigns, empty allowances, arbitrary
initial token balances. -/
def initWorld (registry : Addr) (bal : Addr → Nat) : World :=
  { time := 0
    registryAddr := registry
    nextAddr := registry + 1
    token := { balances := bal, allowance := fun _ _ => 0 }
    campaigns := [] }

/-- Whether a fund call is accepted in the given world. -/
def fundAccepted (w : World) (caller h amount : Nat) : Bool :=
  match fund w caller h amount with
  | .ok _ => true
  | .error _ => false

/-- The contribution that one operation adds for contributor `x` on the
campaign with handle `i`: the amount of an accepted fund call by `x` on `i`,
and zero for everything else. -/
def opContrib (w : World) (op : Op) (x i : Nat) : Nat :=
  match op with
  | .fundOp y j a => if y = x ∧ j = i ∧ fundAccepted w y j a then a else 0
  | _ => 0

/-- Total contribution accepted from `x` for handle `i` along a trace. -/
def acceptedOf (w : World) (ops : List Op) (x i : Nat) : Nat :=
  match ops with
  | [] => 0
  | op :: rest => opContrib w op x i + acceptedOf (step w op) rest x i

/-- Spec invariant 1: the running total equals the sum of the ledger. -/
def ledgerOk (c : Campaign) : Prop :=
  c.raisedAmount = (c.contributions.map Prod.snd).sum

/-- Spec invariant 4, strengthened to the ambient clock: a finalized flag is
only ever observed once the deadline is in the past. -/
@[reducible] def finOk (w : World) : Prop :=
  ∀ (i : Nat) (c : Campaign),
    w.campaigns[i]? = some c → c.isFinalized = true → c.raisingDeadline ≤ w.time

/-- All campaigns of a world satisfy the ledger invariant. -/
@[reducible] def worldLedgerOk (w : World) : Prop :=
  ∀ (i : Nat) (c : Campaign), w.campaigns[i]? = some c → ledgerOk c


/-- A concrete token balance sheet used in the example worlds below. -/
def balW : Addr → Nat := fun a =>
  if a = 1 then 80 else if a = 5 then 1000 else if a = 6 then 1000 else 0

/-- Token state with no outstanding allowances. -/
def tokenW : TokenState := { balances := balW, allowance := fun _ _ => 0 }

/-- Token state where account 5 has approved the registry (address 0) for 50. -/
def tokenAllow : TokenState :=
  { balances := balW, allowance := fun o s => if o = 5 ∧ s = 0 then 50 else 0 }

/-- A concrete campaign: created by account 2, custody address 1, minimum 10,
deadline 86400, with 80 raised from accounts 5 and 6. -/
def campW : Campaign :=
  { addr := 1, creatorIdentity := 2, creatorName := "c", title := "t",
    description := "d", imageLink := "i", token := 9, goalAmount := 100,
    minimumAmount := 10, raisingDeadline := 86400, raisedAmount := 80,
    contributions := [(5, 50), (6, 30)], isFinalized := false,
    fundsReleased := false }

/-- A world past the deadline of its single campaign, ready for release. -/
def wRel : World :=
  { time := 200000, registryAddr := 0, nextAddr := 2, token := tokenW,
    campaigns := [campW] }

/-- The world after the creator successfully releases the funds of `wRel`. -/
def wRel1 : World := step wRel (.releaseOp 2 0)

/-- The same single-campaign world observed before the deadline. -/
def wEarly : World := { wRel with time := 0 }

/-- A pre-deadline world where account 5 has approved the registry for 50. -/
def wFund : World :=
  { time := 0, registryAddr := 0, nextAddr := 2, token := tokenAllow,
    campaigns := [campW] }

/-- A freshly deployed example world. -/
def w0 : World := initWorld 0 balW

/-- The example world after account 2 creates a 30-day campaign in `w0`. -/
def wStart : World := step w0 (.start 2 9 "n" "t" "d" "i" 30 100 none)

/-- The freshly created example campaign of `wStart`. -/
def campStart : Campaign :=
  { addr := 1, creatorIdentity := 2, creatorName := "n", title := "t",
    description := "d", imageLink := "i", token := 9, goalAmount := 100,
    minimumAmount := 0, raisingDeadline := 2592000, raisedAmount := 0,
    contributions := [], isFinalized := false, fundsReleased := false }

/-- The example campaign after the two contributions below. -/
def campFunded : Campaign :=
  { campStart with raisedAmount := 80, contributions := [(5, 50), (6, 30)] }

/-- The example campaign created with a one-day deadline. -/
def campDay : Campaign := { campStart with raisingDeadline := 86400 }

/-- The example funding calls: 5 contributes 50, then 6 contributes 30, each
after approving the registry. -/
def fundOps : List Op :=
  [.approve 5 0 50, .fundOp 5 0 50, .approve 6 0 30, .fundOp 6 0 30]

/-- The world after account 5 funds 50 into the campaign of `wFund`. -/
def wFund1 : World := step wFund (.fundOp 5 0 50)

/-- The world after account 5 also creates a campaign in `wFund` with the
minimum argument omitted. -/
def wFundStart : World := step wFund (.start 5 9 "n" "t" "d" "i" 30 100 none)

theorem getElem?_some_lt {α : Type} {l : List α} {i : Nat} {a : α}
    (h : l[i]? = some a) : i < l.length := by
  by_contra hc
  rw [List.getElem?_eq_none (Nat.le_of_not_lt hc)] at h
  cases h

theorem mapAddr_set (l : List Campaign) (i : Nat) (c c' : Campaign)
    (hc : l[i]? = some c) (ha : c'.addr = c.addr) :
    (l.set i c').map Campaign.addr = l.map Campaign.addr := by
  induction l generalizing i with
  | nil => cases hc
  | cons x xs ih =>
      cases i with
      | zero =>
          simp only [List.getElem?_cons_zero, Option.some.injEq] at hc
          subst hc
          simp [List.set, ha]
      | succ j =>
          simp only [List.getElem?_cons_succ] at hc
          simp [List.set, ih j hc]

theorem sum_addContribution (l : List (Addr × Nat)) (who amt : Nat) :
    ((addContribution l who amt).map Prod.snd).sum = (l.map Prod.snd).sum + amt := by
  induction l with
  | nil => simp [addContribution]
  | cons p rest ih =>
      obtain ⟨a, v⟩ := p
      by_cases hw : a = who
      · simp [addContribution, hw]
        omega
      · simp [addContribution, hw, ih]
        omega

theorem contribOf_addContribution_same (l : List (Addr × Nat)) (who amt : Nat) :
    contribOf (addContribution l who amt) who = contribOf l who + amt := by
  induction l with
  | nil => simp [addContribution, contribOf]
  | cons p rest ih =>
      obtain ⟨a, v⟩ := p
      by_cases hw : a = who
      · simp [addContribution, hw, contribOf]
      · simp [addContribution, hw, contribOf, ih]

theorem contribOf_addContribution_ne (l : List (Addr × Nat)) (who amt x : Nat)
    (hx : x ≠ who) :
    contribOf (addContribution l who amt) x = contribOf l x := by
  induction l with
  | nil => simp [addContribution, contribOf, Ne.symm hx]
  | cons p rest ih =>
      obtain ⟨a, v⟩ := p
      by_cases hw : a = who
      · subst hw
        simp [addContribution, contribOf, Ne.symm hx]
      · simp [addContribution, hw, contribOf, ih]

theorem transferFrom_ok {t : TokenState} {spender payer payee : Addr} {amount : Nat}
    {t' : TokenState} (h : t.transferFrom spender payer payee amount = some t')
    (hne : payee ≠ payer) :
    amount ≤ t.allowance payer spender ∧ amount ≤ t.balances payer ∧
    t'.balances payee = t.balances payee + amount ∧
    t'.balances payer = t.balances payer - amount ∧
    t'.allowance payer spender = t.allowance payer spender - amount ∧
    (∀ a, a ≠ payer → a ≠ payee → t'.balances a = t.balances a) ∧
    (∀ o s, ¬(o = payer ∧ s = spender) → t'.allowance o s = t.allowance o s) := by
  unfold TokenState.transferFrom at h
  split at h
  · next hcond =>
      injection h with h
      subst h
      refine ⟨hcond.1, hcond.2, ?_, ?_, ?_, ?_, ?_⟩
      · simp [hne]
      · by_cases hpp : payer = payee <;> simp [hpp] at hne ⊢
      · simp
      · intro a ha hp
        simp [ha, hp]
      · intro o s hos
        simp [hos]
  · cases h

theorem transfer_ok {t : TokenState} {sender recipient : Addr} {amount : Nat}
    {t' : TokenState} (h : t.transfer sender recipient amount = some t')
    (hne : recipient ≠ sender) :
    amount ≤ t.balances sender ∧
    t'.balances recipient = t.balances recipient + amount ∧
    t'.balances sender = t.balances sender - amount ∧
    (∀ a, a ≠ sender → a ≠ recipient → t'.balances a = t.balances a) ∧
    t'.allowance = t.allowance := by
  unfold TokenState.transfer at h
  split at h
  · next hcond =>
      injection h with h
      subst h
      refine ⟨hcond, ?_, ?_, ?_, rfl⟩
      · simp [hne]
      · by_cases hrs : sender = recipient <;> simp [hrs] at hne ⊢
      · intro a ha hr
        simp [ha, hr]
  · cases h

theorem fund_ok_shape {w : World} {caller : Addr} {i amount : Nat} {w' : World}
    (h : fund w caller i amount = .ok w') :
    ∃ c t', w.campaigns[i]? = some c ∧
      w.time < c.raisingDeadline ∧
      c.minimumAmount ≤ amount ∧
      w.token.transferFrom w.registryAddr caller c.addr amount = some t' ∧
      w' = { w with
               token := t',
               campaigns := w.campaigns.set i { c with
                 raisedAmount := c.raisedAmount + amount,
                 contributions := addContribution c.contributions caller amount } } := by
  unfold fund at h
  split at h
  · cases h
  · next c hc =>
      split at h
      · cases h
      · next hd =>
          split at h
          · cases h
          · next hm =>
              split at h
              · cases h
              · next t' ht =>
                  injection h with h
                  exact ⟨c, t', hc, Nat.lt_of_not_le hd, Nat.le_of_not_lt hm, ht, h.symm⟩

theorem release_ok_shape {w : World} {caller : Addr} {i : Nat} {w' : World}
    (h : release w caller i = .ok w') :
    ∃ c t', w.campaigns[i]? = some c ∧
      (c.finalizeAt w.time).isFinalized = true ∧
      c.fundsReleased = false ∧
      caller = c.creatorIdentity ∧
      w.token.transfer c.addr c.creatorIdentity c.raisedAmount = some t' ∧
      w' = { w with
               token := t',
               campaigns := w.campaigns.set i
                 { c.finalizeAt w.time with fundsReleased := true } } := by
  unfold release at h
  split at h
  · cases h
  · next c hc =>
      split at h
      · cases h
      · next hfin =>
          split at h
          · cases h
          · next hrel =>
              split at h
              · cases h
              · next hcaller =>
                  split at h
                  · cases h
                  · next t' ht =>
                      injection h with h
                      refine ⟨c, t', hc, Bool.of_not_eq_false hfin, ?_, ?_, ht, h.symm⟩
                      · simpa [Campaign.finalizeAt] using hrel
                      · exact Decidable.of_not_not hcaller

theorem finalizeAt_addr (c : Campaign) (now : Nat) : (c.finalizeAt now).addr = c.addr := rfl

theorem finalizeAt_creator (c : Campaign) (now : Nat) :
    (c.finalizeAt now).creatorIdentity = c.creatorIdentity := rfl

theorem finalizeAt_deadline (c : Campaign) (now : Nat) :
    (c.finalizeAt now).raisingDeadline = c.raisingDeadline := rfl

theorem finalizeAt_minimum (c : Campaign) (now : Nat) :
    (c.finalizeAt now).minimumAmount = c.minimumAmount := rfl

theorem finalizeAt_raised (c : Campaign) (now : Nat) :
    (c.finalizeAt now).raisedAmount = c.raisedAmount := rfl

theorem finalizeAt_contributions (c : Campaign) (now : Nat) :
    (c.finalizeAt now).contributions = c.contributions := rfl

theorem finalizeAt_released (c : Campaign) (now : Nat) :
    (c.finalizeAt now).fundsReleased = c.fundsReleased := rfl

theorem finalizeAt_isFinalized (c : Campaign) (now : Nat) :
    (c.finalizeAt now).isFinalized = (c.isFinalized || decide (c.raisingDeadline ≤ now)) := rfl

theorem step_campaign {w : World} (op : Op) {i : Nat} {c : Campaign}
    (hc : w.campaigns[i]? = some c) :
    ∃ c', (step w op).campaigns[i]? = some c' ∧
      c'.addr = c.addr ∧
      c'.creatorIdentity = c.creatorIdentity ∧
      c'.raisingDeadline = c.raisingDeadline ∧
      c'.minimumAmount = c.minimumAmount ∧
      (c.isFinalized = true → c'.isFinalized = true) ∧
      (c.fundsReleased = true → c'.fundsReleased = true) ∧
      (∀ x, contribOf c'.contributions x = contribOf c.contributions x + opContrib w op x i) ∧
      (ledgerOk c → ledgerOk c') := by
  cases op with
  | advance d =>
      exact ⟨c, hc, rfl, rfl, rfl, rfl, id, id, fun x => by simp [opContrib], id⟩
  | approve o s a =>
      exact ⟨c, hc, rfl, rfl, rfl, rfl, id, id, fun x => by simp [opContrib], id⟩
  | start cl tk cn ti de im days goal minOpt =>
      simp only [step]
      cases hs : startProject w cl tk cn ti de im days goal minOpt with
      | error e =>
          exact ⟨c, hc, rfl, rfl, rfl, rfl, id, id, fun x => by simp [opContrib], id⟩
      | ok p =>
          have hlen : i < w.campaigns.length := getElem?_some_lt hc
          unfold startProject at hs
          split at hs
          · cases hs
          · injection hs with hs
            subst hs
            refine ⟨c, ?_, rfl, rfl, rfl, rfl, id, id, fun x => by simp [opContrib], id⟩
            simpa [List.getElem?_append_left hlen] using hc
  | finalize j =>
      simp only [step]
      unfold finalizeOp
      cases hj : w.campaigns[j]? with
      | none => exact ⟨c, hc, rfl, rfl, rfl, rfl, id, id, fun x => by simp [opContrib], id⟩
      | some cj =>
          by_cases hij : j = i
          · subst hij
            rw [hj] at hc
            injection hc with hc
            subst hc
            refine ⟨cj.finalizeAt w.time, ?_, rfl, rfl, rfl, rfl, ?_, id,
              fun x => by simp [opContrib, finalizeAt_contributions], ?_⟩
            · simp [List.getElem?_set_eq_of_lt _ (getElem?_some_lt hj)]
            · intro hfin
              simp [finalizeAt_isFinalized, hfin]
            · intro hl
              simpa [ledgerOk] using hl
          · refine ⟨c, ?_, rfl, rfl, rfl, rfl, id, id, fun x => by simp [opContrib], id⟩
            simpa [List.getElem?_set_ne hij] using hc
  | fundOp y j a =>
      simp only [step]
      cases hf : fund w y j a with
      | error e =>
          refine ⟨c, hc, rfl, rfl, rfl, rfl, id, id, ?_, id⟩
          intro x
          simp [opContrib, fundAccepted, hf]
      | ok w' =>
          obtain ⟨cj, t', hcj, hdl, hmin, htr, hw'⟩ := fund_ok_shape hf
          subst hw'
          by_cases hij : j = i
          · subst hij
            rw [hcj] at hc
            injection hc with hc
            subst hc
            refine ⟨{ cj with
                raisedAmount := cj.raisedAmount + a,
                contributions := addContribution cj.contributions y a },
              ?_, rfl, rfl, rfl, rfl, id, id, ?_, ?_⟩
            · simp [List.getElem?_set_eq_of_lt _ (getElem?_some_lt hcj)]
            · intro x
              by_cases hxy : y = x
              · subst hxy
                simp [opContrib, fundAccepted, hf, contribOf_addContribution_same]
              · simp [opContrib, fundAccepted, hf, hxy,
                  contribOf_addContribution_ne _ _ _ _ (fun hmm => hxy hmm.symm)]
            · intro hl
              simp only [ledgerOk] at hl ⊢
              simp [sum_addContribution, hl]
          · refine ⟨c, ?_, rfl, rfl, rfl, rfl, id, id, ?_, id⟩
            · simpa [List.getElem?_set_ne hij] using hc
            · intro x
              simp [opContrib, hij]
  | releaseOp y j =>
      simp only [step]
      cases hr : release w y j with
      | error e =>
          exact ⟨c, hc, rfl, rfl, rfl, rfl, id, id, fun x => by simp [opContrib], id⟩
      | ok w' =>
          obtain ⟨cj, t', hcj, hfin, hrel, hcaller, htr, hw'⟩ := release_ok_shape hr
          subst hw'
          by_cases hij : j = i
          · subst hij
            rw [hcj] at hc
            injection hc with hc
            subst hc
            refine ⟨{ cj.finalizeAt w.time with fundsReleased := true },
              ?_, rfl, rfl, rfl, rfl, ?_, ?_,
              fun x => by simp [opContrib, finalizeAt_contributions], ?_⟩
            · simp [List.getElem?_set_eq_of_lt _ (getElem?_some_lt hcj)]
            · intro _
              exact hfin
            · intro _
              rfl
            · intro hl
              simpa [ledgerOk] using hl
          · refine ⟨c, ?_, rfl, rfl, rfl, rfl, id, id, fun x => by simp [opContrib], id⟩
            simpa [List.getElem?_set_ne hij] using hc

theorem trace_campaign {w : World} (ops : List Op) {i : Nat} {c : Campaign}
    (hc : w.campaigns[i]? = some c) :
    ∃ c', (trace w ops).campaigns[i]? = some c' ∧
      c'.addr = c.addr ∧
      c'.creatorIdentity = c.creatorIdentity ∧
      c'.raisingDeadline = c.raisingDeadline ∧
      c'.minimumAmount = c.minimumAmount ∧
      (c.isFinalized = true → c'.isFinalized = true) ∧
      (c.fundsReleased = true → c'.fundsReleased = true) ∧
      (∀ x, contribOf c'.contributions x = contribOf c.contributions x + acceptedOf w ops x i) ∧
      (ledgerOk c → ledgerOk c') := by
  induction ops generalizing w c with
  | nil =>
      exact ⟨c, hc, rfl, rfl, rfl, rfl, id, id, fun x => by simp [acceptedOf], id⟩
  | cons op rest ih =>
      obtain ⟨c1, hc1, ha1, hcr1, hd1, hm1, hf1, hr1, hco1, hl1⟩ := step_campaign op hc
      obtain ⟨c2, hc2, ha2, hcr2, hd2, hm2, hf2, hr2, hco2, hl2⟩ := ih hc1
      refine ⟨c2, hc2, ha2.trans ha1, hcr2.trans hcr1, hd2.trans hd1, hm2.trans hm1,
        fun hf => hf2 (hf1 hf), fun hr => hr2 (hr1 hr), ?_, fun hl => hl2 (hl1 hl)⟩
      intro x
      rw [hco2 x, hco1 x]
      simp [acceptedOf, trace]
      omega

theorem step_time (w : World) (op : Op) : w.time ≤ (step w op).time := by
  cases op with
  | advance d => simp [step]
  | approve o s a => exact Nat.le_refl _
  | start cl tk cn ti de im days goal minOpt =>
      simp only [step]
      cases hs : startProject w cl tk cn ti de im days goal minOpt with
      | error e => exact Nat.le_refl _
      | ok p =>
          unfold startProject at hs
          split at hs
          · cases hs
          · injection hs with hs
            subst hs
            exact Nat.le_refl _
  | finalize j =>
      simp only [step]
      unfold finalizeOp
      cases w.campaigns[j]? <;> exact Nat.le_refl _
  | fundOp y j a =>
      simp only [step]
      cases hf : fund w y j a with
      | error e => exact Nat.le_refl _
      | ok w' =>
          obtain ⟨cj, t', hcj, hq1, hq2, hq3, hw'⟩ := fund_ok_shape hf
          subst hw'
          exact Nat.le_refl _
  | releaseOp y j =>
      simp only [step]
      cases hr : release w y j with
      | error e => exact Nat.le_refl _
      | ok w' =>
          obtain ⟨cj, t', hcj, hq1, hq2, hq3, hq4, hw'⟩ := release_ok_shape hr
          subst hw'
          exact Nat.le_refl _

theorem step_finOk {w : World} (hw : finOk w) (op : Op) : finOk (step w op) := by
  cases op with
  | advance d =>
      intro i c hc hfin
      have := hw i c hc hfin
      simp only [step] at hc ⊢
      omega
  | approve o s a =>
      exact fun i c hc hfin => hw i c hc hfin
  | start cl tk cn ti de im days goal minOpt =>
      intro i c hc hfin
      simp only [step] at hc
      revert hc
      cases hs : startProject w cl tk cn ti de im days goal minOpt with
      | error e => exact fun hc => le_trans (hw i c hc hfin) (step_time w _)
      | ok p =>
          intro hc
          unfold startProject at hs
          split at hs
          · cases hs
          · injection hs with hs
            subst hs
            simp only at hc
            rcases Nat.lt_trichotomy i w.campaigns.length with hlt | heq | hgt
            · rw [List.getElem?_append_left hlt] at hc
              exact le_trans (hw i c hc hfin) (step_time w _)
            · subst heq
              rw [List.getElem?_concat_length] at hc
              injection hc with hc
              subst hc
              cases hfin
            · rw [List.getElem?_eq_none] at hc
              · cases hc
              · simp
                omega
  | finalize j =>
      intro i c hc hfin
      simp only [step] at hc
      unfold finalizeOp at hc
      revert hc
      cases hj : w.campaigns[j]? with
      | none => exact fun hc => le_trans (hw i c hc hfin) (step_time w _)
      | some cj =>
          intro hc
          by_cases hij : j = i
          · subst hij
            rw [List.getElem?_set_eq_of_lt _ (getElem?_some_lt hj)] at hc
            injection hc with hc
            subst hc
            rw [finalizeAt_isFinalized] at hfin
            rw [finalizeAt_deadline]
            rcases Bool.or_eq_true_iff.mp hfin with h1 | h1
            · exact le_trans (hw j cj hj h1) (step_time w _)
            · exact le_trans (of_decide_eq_true h1) (step_time w _)
          · rw [List.getElem?_set_ne hij] at hc
            exact le_trans (hw i c hc hfin) (step_time w _)
  | fundOp y j a =>
      intro i c hc hfin
      simp only [step] at hc
      revert hc
      cases hf : fund w y j a with
      | error e => exact fun hc => le_trans (hw i c hc hfin) (step_time w _)
      | ok w' =>
          intro hc
          obtain ⟨cj, t', hcj, hdl, hmin, htr, hw'⟩ := fund_ok_shape hf
          subst hw'
          simp only at hc ⊢
          by_cases hij : j = i
          · subst hij
            rw [List.getElem?_set_eq_of_lt _ (getElem?_some_lt hcj)] at hc
            injection hc with hc
            subst hc
            exact le_trans (hw j cj hcj hfin) (step_time w _)
          · rw [List.getElem?_set_ne hij] at hc
            exact le_trans (hw i c hc hfin) (step_time w _)
  | releaseOp y j =>
      intro i c hc hfin
      simp only [step] at hc
      revert hc
      cases hr : release w y j with
      | error e => exact fun hc => le_trans (hw i c hc hfin) (step_time w _)
      | ok w' =>
          intro hc
          obtain ⟨cj, t', hcj, hfj, hrj, hyj, htr, hw'⟩ := release_ok_shape hr
          subst hw'
          simp only at hc ⊢
          by_cases hij : j = i
          · subst hij
            rw [List.getElem?_set_eq_of_lt _ (getElem?_some_lt hcj)] at hc
            injection hc with hc
            subst hc
            rw [finalizeAt_isFinalized] at hfj
            rw [finalizeAt_deadline]
            rcases Bool.or_eq_true_iff.mp hfj with h1 | h1
            · exact le_trans (hw j cj hcj h1) (step_time w _)
            · exact le_trans (of_decide_eq_true h1) (step_time w _)
          · rw [List.getElem?_set_ne hij] at hc
            exact le_trans (hw i c hc hfin) (step_time w _)

theorem trace_finOk {w : World} (hw : finOk w) (ops : List Op) : finOk (trace w ops) := by
  induction ops generalizing w with
  | nil => exact hw
  | cons op rest ih => exact ih (step_finOk hw op)

theorem step_worldLedgerOk {w : World} (hw : worldLedgerOk w) (op : Op) :
    worldLedgerOk (step w op) := by
  intro i c' hc'
  by_cases hlen : i < w.campaigns.length
  · have hci : ∃ ci, w.campaigns[i]? = some ci := by
      rw [List.getElem?_eq_getElem hlen]
      exact ⟨_, rfl⟩
    obtain ⟨ci, hci⟩ := hci
    obtain ⟨c2, hc2, h1, h2, h3, h4, h5, h6, h7, hl⟩ := step_campaign op hci
    rw [hc'] at hc2
    injection hc2 with hc2
    subst hc2
    exact hl (hw i ci hci)
  · cases op with
    | advance d =>
        simp only [step] at hc'
        exact absurd (getElem?_some_lt hc') hlen
    | approve o s a =>
        simp only [step] at hc'
        exact absurd (getElem?_some_lt hc') hlen
    | finalize j =>
        simp only [step] at hc'
        unfold finalizeOp at hc'
        revert hc'
        cases w.campaigns[j]? with
        | none => exact fun hc' => absurd (getElem?_some_lt hc') hlen
        | some cj =>
            intro hc'
            have := getElem?_some_lt hc'
            simp only [List.length_set] at this
            exact absurd this hlen
    | fundOp y j a =>
        simp only [step] at hc'
        revert hc'
        cases hf : fund w y j a with
        | error e => exact fun hc' => absurd (getElem?_some_lt hc') hlen
        | ok w' =>
            intro hc'
            obtain ⟨cj, t', hcj, hq1, hq2, hq3, hw'⟩ := fund_ok_shape hf
            subst hw'
            have := getElem?_some_lt hc'
            simp only [List.length_set] at this
            exact absurd this hlen
    | releaseOp y j =>
        simp only [step] at hc'
        revert hc'
        cases hr : release w y j with
        | error e => exact fun hc' => absurd (getElem?_some_lt hc') hlen
        | ok w' =>
            intro hc'
            obtain ⟨cj, t', hcj, hq1, hq2, hq3, hq4, hw'⟩ := release_ok_shape hr
            subst hw'
            have := getElem?_some_lt hc'
            simp only [List.length_set] at this
            exact absurd this hlen
    | start cl tk cn ti de im days goal minOpt =>
        simp only [step] at hc'
        revert hc'
        cases hs : startProject w cl tk cn ti de im days goal minOpt with
        | error e => exact fun hc' => absurd (getElem?_some_lt hc') hlen
        | ok p =>
            intro hc'
            unfold startProject at hs
            split at hs
            · cases hs
            · injection hs with hs
              subst hs
              simp only at hc'
              have hup := getElem?_some_lt hc'
              simp only [List.length_append, List.length_cons, List.length_nil] at hup
              have hieq : i = w.campaigns.length := by omega
              subst hieq
              rw [List.getElem?_concat_length] at hc'
              injection hc' with hc'
              subst hc'
              simp [ledgerOk]

theorem trace_worldLedgerOk {w : World} (hw : worldLedgerOk w) (ops : List Op) :
    worldLedgerOk (trace w ops) := by
  induction ops generalizing w with
  | nil => exact hw
  | cons op rest ih => exact ih (step_worldLedgerOk hw op)

theorem step_projects_extends (w : World) (op : Op) :
    ∃ t, returnProjects (step w op) = returnProjects w ++ t := by
  cases op with
  | advance d => exact ⟨[], by simp [returnProjects, step]⟩
  | approve o s a => exact ⟨[], by simp [returnProjects, step]⟩
  | finalize j =>
      refine ⟨[], ?_⟩
      simp only [returnProjects, step, List.append_nil]
      unfold finalizeOp
      cases hj : w.campaigns[j]? with
      | none => rfl
      | some cj => exact mapAddr_set _ _ _ _ hj rfl
  | fundOp y j a =>
      refine ⟨[], ?_⟩
      simp only [returnProjects, step, List.append_nil]
      cases hf : fund w y j a with
      | error e => rfl
      | ok w' =>
          obtain ⟨cj, t', hcj, hq1, hq2, hq3, hw'⟩ := fund_ok_shape hf
          subst hw'
          exact mapAddr_set _ _ _ _ hcj rfl
  | releaseOp y j =>
      refine ⟨[], ?_⟩
      simp only [returnProjects, step, List.append_nil]
      cases hr : release w y j with
      | error e => rfl
      | ok w' =>
          obtain ⟨cj, t', hcj, hq1, hq2, hq3, hq4, hw'⟩ := release_ok_shape hr
          subst hw'
          exact mapAddr_set _ _ _ _ hcj rfl
  | start cl tk cn ti de im days goal minOpt =>
      simp only [returnProjects, step]
      cases hs : startProject w cl tk cn ti de im days goal minOpt with
      | error e => exact ⟨[], by simp⟩
      | ok p =>
          unfold startProject at hs
          split at hs
          · cases hs
          · injection hs with hs
            subst hs
            exact ⟨[w.nextAddr], by simp⟩

theorem trace_projects_extends (w : World) (ops : List Op) :
    ∃ t, returnProjects (trace w ops) = returnProjects w ++ t := by
  induction ops generalizing w with
  | nil => exact ⟨[], by simp [trace]⟩
  | cons op rest ih =>
      obtain ⟨t1, ht1⟩ := step_projects_extends w op
      obtain ⟨t2, ht2⟩ := ih (step w op)
      refine ⟨t1 ++ t2, ?_⟩
      show returnProjects (trace (step w op) rest) = _
      rw [ht2, ht1, List.append_assoc]

/-- Claim C4: for every campaign, every `fund` call made at or after
`raisingDeadline` fails with `DeadlinePassed` and leaves the whole world — in
particular `raisedAmount` and the contributions ledger — unchanged. -/
theorem fund_after_deadline (w : World) (caller : Addr) (h amount : Nat)
    (c : Campaign) (hc : w.campaigns[h]? = some c)
    (hd : c.raisingDeadline ≤ w.time) :
    fund w caller h amount = .error .deadlinePassed ∧
    step w (.fundOp caller h amount) = w := by
  have hfail : fund w caller h amount = .error .deadlinePassed := by
    unfold fund
    rw [hc]
    simp [hd]
  exact ⟨hfail, by simp only [step, hfail]⟩

/-- Witness for C4: the deadline of `campW` has passed in `wRel`, and funding
fails with `DeadlinePassed`, changing nothing. -/
theorem fund_after_deadline_witness :
    fund wRel 5 0 50 = .error .deadlinePassed ∧
    step wRel (.fundOp 5 0 50) = wRel :=
  fund_after_deadline wRel 5 0 50 campW rfl (by decide)

/-- Claim C5 as frozen is false on the model: a fund call below the minimum
that also arrives after the deadline fails with `DeadlinePassed`, not
`BelowMinimum` — the deadline check has priority.  Concretely in `wRel`
(minimum 10, deadline long past), funding 5 yields `DeadlinePassed`. -/
theorem fund_below_minimum_cex :
    (5 : Nat) < campW.minimumAmount ∧
    wRel.campaigns[0]? = some campW ∧
    campW.raisingDeadline ≤ wRel.time ∧
    fund wRel 5 0 5 = .error .deadlinePassed ∧
    CfError.deadlinePassed ≠ CfError.belowMinimum :=
  ⟨by decide, rfl, by decide, rfl, by decide⟩

/-- Claim C5 (amended): for every campaign with a configured `minimumAmount`,
every fund call made before `raisingDeadline` with `amount < minimumAmount`
fails with `BelowMinimum` and leaves the world — in particular
`raisedAmount` — unchanged. -/
theorem fund_below_minimum (w : World) (caller : Addr) (h amount : Nat)
    (c : Campaign) (hc : w.campaigns[h]? = some c)
    (ht : w.time < c.raisingDeadline) (hm : amount < c.minimumAmount) :
    fund w caller h amount = .error .belowMinimum ∧
    step w (.fundOp caller h amount) = w := by
  have hfail : fund w caller h amount = .error .belowMinimum := by
    unfold fund
    rw [hc]
    simp [Nat.not_le.mpr ht, hm]
  exact ⟨hfail, by simp only [step, hfail]⟩

/-- Witness for C5 (amended): in `wEarly` (time 0, minimum 10), funding 5
fails with `BelowMinimum` and changes nothing. -/
theorem fund_below_minimum_witness :
    fund wEarly 5 0 5 = .error .belowMinimum ∧
    step wEarly (.fundOp 5 0 5) = wEarly :=
  fund_below_minimum wEarly 5 0 5 campW rfl (by decide) (by decide)

/-- Claim C1: release succeeds at most once per campaign: after one successful
release, every further release call on that campaign — by any caller, after
any further sequence of calls — fails with `AlreadyReleased` and leaves all
state unchanged. -/
theorem release_at_most_once (w : World) (caller : Addr) (h : Nat) (w1 : World)
    (hrel : release w caller h = .ok w1) (ops : List Op) (caller2 : Addr) :
    release (trace w1 ops) caller2 h = .error .alreadyReleased ∧
    step (trace w1 ops) (.releaseOp caller2 h) = trace w1 ops := by
  obtain ⟨c, t', hc, hfin, hrelf, hcall, htr, hw1⟩ := release_ok_shape hrel
  have hc1 : w1.campaigns[h]? = some { c.finalizeAt w.time with fundsReleased := true } := by
    subst hw1
    simp [List.getElem?_set_eq_of_lt _ (getElem?_some_lt hc)]
  obtain ⟨c2, hc2, ha2, hcr2, hd2, hm2, hf2, hr2, hco2, hl2⟩ := trace_campaign ops hc1
  have hfin2 : c2.isFinalized = true := hf2 hfin
  have hrel2 : c2.fundsReleased = true := hr2 rfl
  have hfail : release (trace w1 ops) caller2 h = .error .alreadyReleased := by
    unfold release
    rw [hc2]
    simp [finalizeAt_isFinalized, finalizeAt_released, hfin2, hrel2]
  exact ⟨hfail, by simp only [step, hfail]⟩

/-- Witness for C1: after the creator releases in `wRel`, a later release by
anyone fails with `AlreadyReleased` and changes nothing. -/
theorem release_at_most_once_witness :
    release (trace wRel1 [.advance 100]) 3 0 = .error .alreadyReleased ∧
    step (trace wRel1 [.advance 100]) (.releaseOp 3 0) = trace wRel1 [.advance 100] :=
  release_at_most_once wRel 2 0 wRel1 rfl [.advance 100] 3

/-- Claim C2: a successful release moves exactly `raisedAmount` (as recorded
at the moment of release) out of campaign custody to `creatorIdentity`: the
creator's token balance increases by exactly `raisedAmount`, campaign custody
decreases by it, and the released flag is set with the total intact. -/
theorem release_moves_raisedAmount (w : World) (caller : Addr) (h : Nat)
    (c : Campaign) (hc : w.campaigns[h]? = some c)
    (hne : c.creatorIdentity ≠ c.addr) (w' : World)
    (hok : release w caller h = .ok w') :
    w'.token.balances c.creatorIdentity
        = w.token.balances c.creatorIdentity + c.raisedAmount ∧
    c.raisedAmount ≤ w.token.balances c.addr ∧
    w'.token.balances c.addr = w.token.balances c.addr - c.raisedAmount ∧
    ∃ cNew, w'.campaigns[h]? = some cNew ∧ cNew.fundsReleased = true ∧
      cNew.raisedAmount = c.raisedAmount := by
  obtain ⟨c0, t', hc0, hfin, hrelf, hcall, htr, hw'⟩ := release_ok_shape hok
  rw [hc] at hc0
  injection hc0 with hc0
  subst hc0
  obtain ⟨hbal, hrec, hsend, hoth, hallow⟩ := transfer_ok htr hne
  subst hw'
  refine ⟨hrec, hbal, hsend,
    ⟨{ c.finalizeAt w.time with fundsReleased := true }, ?_, rfl, rfl⟩⟩
  simp [List.getElem?_set_eq_of_lt _ (getElem?_some_lt hc)]

/-- Witness for C2: releasing `wRel` pays the creator (account 2) exactly the
80 raised, empties custody (address 1) and marks the campaign released. -/
theorem release_moves_raisedAmount_witness :
    wRel1.token.balances campW.creatorIdentity
        = wRel.token.balances campW.creatorIdentity + campW.raisedAmount ∧
    campW.raisedAmount ≤ wRel.token.balances campW.addr ∧
    wRel1.token.balances campW.addr
        = wRel.token.balances campW.addr - campW.raisedAmount ∧
    ∃ cNew, wRel1.campaigns[0]? = some cNew ∧ cNew.fundsReleased = true ∧
      cNew.raisedAmount = campW.raisedAmount :=
  release_moves_raisedAmount wRel 2 0 campW rfl (by decide) wRel1 rfl

/-- Claim C3: at every observable point of every call sequence accepted before
the deadline, `raisedAmount` equals the exact sum of the recorded accepted
contributions, and each contributor's ledger entry grows by exactly that
contributor's accepted amounts. -/
theorem raised_eq_sum_of_contributions (w : World) (hw : worldLedgerOk w)
    (ops : List Op) (h : Nat) (c0 c : Campaign) (x : Addr)
    (hc0 : w.campaigns[h]? = some c0)
    (hc : (trace w ops).campaigns[h]? = some c) :
    c.raisedAmount = (c.contributions.map Prod.snd).sum ∧
    contribOf c.contributions x
      = contribOf c0.contributions x + acceptedOf w ops x h := by
  obtain ⟨c2, hc2, h1, h2, h3, h4, h5, h6, hco, hl⟩ := trace_campaign ops hc0
  rw [hc] at hc2
  injection hc2 with hc2
  subst hc2
  exact ⟨trace_worldLedgerOk hw ops h c hc, hco x⟩

/-- Witness for C3: in the example run, the total is 80 = 50 + 30 and account
5's ledger entry equals its accepted 50. -/
theorem raised_eq_sum_of_contributions_witness :
    campFunded.raisedAmount = (campFunded.contributions.map Prod.snd).sum ∧
    contribOf campFunded.contributions 5
      = contribOf campStart.contributions 5 + acceptedOf wStart fundOps 5 0 :=
  raised_eq_sum_of_contributions wStart
    (trace_worldLedgerOk (fun i c hci => by simp [w0, initWorld] at hci)
      [.start 2 9 "n" "t" "d" "i" 30 100 none])
    fundOps 0 campStart campFunded 5 rfl rfl

/-- Claim C6: finalization is lazy and exact: in any world reachable from a
fresh deployment, the lazily observed `isFinalized` query answers true exactly
when the current time has reached `raisingDeadline` — no extra delay and no
deadline multiplier. -/
theorem isFinalized_iff_deadline (reg : Addr) (bal : Addr → Nat) (ops : List Op)
    (h : Nat) (c : Campaign)
    (hc : (trace (initWorld reg bal) ops).campaigns[h]? = some c) :
    isFinalizedQuery (trace (initWorld reg bal) ops) h
      = some (decide (c.raisingDeadline ≤ (trace (initWorld reg bal) ops).time)) := by
  have hfin : finOk (trace (initWorld reg bal) ops) :=
    trace_finOk (fun i c0 hc0 _ => by simp [initWorld] at hc0) ops
  unfold isFinalizedQuery
  rw [hc]
  simp only [Option.map_some']
  congr 1
  rw [finalizeAt_isFinalized]
  cases hifin : c.isFinalized with
  | true =>
      have hdl := hfin h c hc hifin
      simp [hdl]
  | false => simp

/-- Witness for C6: one-day campaign, clock advanced to 90000 > 86400; the
query answers exactly `decide (86400 ≤ 90000) = true`. -/
theorem isFinalized_iff_deadline_witness :
    isFinalizedQuery
      (trace (initWorld 0 balW)
        [.start 2 9 "n" "t" "d" "i" 1 100 none, .advance 90000]) 0
      = some (decide (campDay.raisingDeadline ≤
          (trace (initWorld 0 balW)
            [.start 2 9 "n" "t" "d" "i" 1 100 none, .advance 90000]).time)) :=
  isFinalized_iff_deadline 0 balW
    [.start 2 9 "n" "t" "d" "i" 1 100 none, .advance 90000] 0 campDay rfl

/-- Claim C7: a `fund(amount)` call is atomic and exact: either it is rejected
and the whole world is unchanged, or it succeeds and exactly `amount` moves
from the caller to the campaign's custody while `contributions[caller]` and
`raisedAmount` are incremented by `amount` together, other contributors'
entries untouched. -/
theorem fund_moves_amount (w : World) (caller : Addr) (h amount : Nat)
    (c : Campaign) (hc : w.campaigns[h]? = some c) (hne : caller ≠ c.addr) :
    (fundAccepted w caller h amount = false ∧ step w (.fundOp caller h amount) = w) ∨
    (∃ w', fund w caller h amount = .ok w' ∧
      step w (.fundOp caller h amount) = w' ∧
      w.token.balances caller = w'.token.balances caller + amount ∧
      w'.token.balances c.addr = w.token.balances c.addr + amount ∧
      ∃ cNew, w'.campaigns[h]? = some cNew ∧
        cNew.raisedAmount = c.raisedAmount + amount ∧
        contribOf cNew.contributions caller
          = contribOf c.contributions caller + amount ∧
        ∀ x, x ≠ caller →
          contribOf cNew.contributions x = contribOf c.contributions x) := by
  cases hf : fund w caller h amount with
  | error e =>
      left
      exact ⟨by simp [fundAccepted, hf], by simp [step, hf]⟩
  | ok w' =>
      right
      obtain ⟨c0, t', hc0, hdl, hmin, htr, hw'⟩ := fund_ok_shape hf
      rw [hc] at hc0
      injection hc0 with hc0
      subst hc0
      obtain ⟨halw, hbal, hpayee, hpayer, halw2, hoth, hoth2⟩ :=
        transferFrom_ok htr (Ne.symm hne)
      subst hw'
      refine ⟨_, rfl, by simp [step, hf], ?_, hpayee,
        ⟨{ c with
            raisedAmount := c.raisedAmount + amount,
            contributions := addContribution c.contributions caller amount },
          ?_, rfl, contribOf_addContribution_same _ _ _,
          fun x hx => contribOf_addContribution_ne _ _ _ _ hx⟩⟩
      · rw [hpayer]
        omega
      · simp [List.getElem?_set_eq_of_lt _ (getElem?_some_lt hc)]

/-- Witness for C7: in `wFund` account 5 successfully funds 50: balances and
the ledger move by exactly 50. -/
theorem fund_moves_amount_witness :
    (fundAccepted wFund 5 0 50 = false ∧ step wFund (.fundOp 5 0 50) = wFund) ∨
    (∃ w', fund wFund 5 0 50 = .ok w' ∧
      step wFund (.fundOp 5 0 50) = w' ∧
      wFund.token.balances 5 = w'.token.balances 5 + 50 ∧
      w'.token.balances campW.addr = wFund.token.balances campW.addr + 50 ∧
      ∃ cNew, w'.campaigns[0]? = some cNew ∧
        cNew.raisedAmount = campW.raisedAmount + 50 ∧
        contribOf cNew.contributions 5 = contribOf campW.contributions 5 + 50 ∧
        ∀ x, x ≠ 5 → contribOf cNew.contributions x = contribOf campW.contributions x) :=
  fund_moves_amount wFund 5 0 50 campW rfl (by decide)

/-- Claim C8: a successful `startProject` stores
`raisingDeadline = creation time + durationInDays * 86400` on the new
campaign. -/
theorem startProject_deadline (w : World) (caller tok : Addr)
    (cn ti de im : String) (days goal : Nat) (minOpt : Option Nat)
    (w' : World) (a : Addr)
    (hok : startProject w caller tok cn ti de im days goal minOpt = .ok (w', a)) :
    ∃ c, w'.campaigns[w.campaigns.length]? = some c ∧
      c.raisingDeadline = w.time + days * 86400 ∧ c.addr = a := by
  unfold startProject at hok
  split at hok
  · cases hok
  · injection hok with hok
    injection hok with hw' ha
    subst hw'
    subst ha
    exact ⟨_, by simp [List.getElem?_concat_length], rfl, rfl⟩

/-- Witness for C8: the 30-day campaign created in `w0` at time 0 stores
deadline 30 * 86400. -/
theorem startProject_deadline_witness :
    ∃ c, wStart.campaigns[w0.campaigns.length]? = some c ∧
      c.raisingDeadline = w0.time + 30 * 86400 ∧ c.addr = 1 :=
  startProject_deadline w0 2 9 "n" "t" "d" "i" 30 100 none wStart 1 rfl

/-- Claim C9: the new campaign's handle is appended to the registry list and
visible before the creating call returns, and the list is append-only: any
later call sequence only extends `returnProjects` on the right, preserving
creation order (oldest first). -/
theorem registry_append_only (w : World) (caller tok : Addr)
    (cn ti de im : String) (days goal : Nat) (minOpt : Option Nat)
    (w' : World) (a : Addr) (ops : List Op)
    (hok : startProject w caller tok cn ti de im days goal minOpt = .ok (w', a)) :
    returnProjects w' = returnProjects w ++ [a] ∧
    ∃ t, returnProjects (trace w' ops) = returnProjects w' ++ t := by
  refine ⟨?_, trace_projects_extends w' ops⟩
  unfold startProject at hok
  split at hok
  · cases hok
  · injection hok with hok
    injection hok with hw' ha
    subst hw'
    subst ha
    simp [returnProjects]

/-- Witness for C9: creating the example campaign appends handle 1, and a
later clock advance leaves the list an extension of itself. -/
theorem registry_append_only_witness :
    returnProjects wStart = returnProjects w0 ++ [1] ∧
    ∃ t, returnProjects (trace wStart [.advance 5]) = returnProjects wStart ++ t :=
  registry_append_only w0 2 9 "n" "t" "d" "i" 30 100 none wStart 1 [.advance 5] rfl

/-- Claim C10: the public funding entry point is on the Registry, not the
Campaign: a successful `fund` spends the allowance the contributor granted to
the registry's own address (which must cover the amount, and is decremented
by it) while the tokens land in the campaign's custody; and `startProject`
with the trailing minimum argument omitted records `minimumAmount = 0`. -/
theorem fund_entry_is_registry (w : World) (caller : Addr) (h amount : Nat)
    (c : Campaign) (w' : World) (tok : Addr) (cn ti de im : String)
    (days goal : Nat) (w2 : World) (a2 : Addr)
    (hc : w.campaigns[h]? = some c) (hne : caller ≠ c.addr)
    (hfund : fund w caller h amount = .ok w')
    (hstart : startProject w caller tok cn ti de im days goal none = .ok (w2, a2)) :
    amount ≤ w.token.allowance caller w.registryAddr ∧
    w'.token.allowance caller w.registryAddr
        = w.token.allowance caller w.registryAddr - amount ∧
    w'.token.balances c.addr = w.token.balances c.addr + amount ∧
    ∃ cNew, w2.campaigns[w.campaigns.length]? = some cNew ∧
      cNew.minimumAmount = 0 := by
  obtain ⟨c0, t', hc0, hdl, hmin, htr, hw'⟩ := fund_ok_shape hfund
  rw [hc] at hc0
  injection hc0 with hc0
  subst hc0
  obtain ⟨halw, hbal, hpayee, hpayer, halw2, hoth, hoth2⟩ :=
    transferFrom_ok htr (Ne.symm hne)
  subst hw'
  refine ⟨halw, halw2, hpayee, ?_⟩
  unfold startProject at hstart
  split at hstart
  · cases hstart
  · injection hstart with hstart
    injection hstart with hw2 ha2
    subst hw2
    exact ⟨{ addr := w.nextAddr, creatorIdentity := caller, creatorName := cn,
             title := ti, description := de, imageLink := im, token := tok,
             goalAmount := goal, minimumAmount := 0,
             raisingDeadline := w.time + days * 86400, raisedAmount := 0,
             contributions := [], isFinalized := false, fundsReleased := false },
           by simp [List.getElem?_concat_length], rfl⟩

/-- Witness for C10: account 5 approved the registry (address 0) for 50 in
`wFund`; funding succeeds spending that allowance with the tokens landing at
custody address 1, and the 7-argument creation stores minimum 0. -/
theorem fund_entry_is_registry_witness :
    (50 : Nat) ≤ wFund.token.allowance 5 wFund.registryAddr ∧
    wFund1.token.allowance 5 wFund.registryAddr
        = wFund.token.allowance 5 wFund.registryAddr - 50 ∧
    wFund1.token.balances campW.addr = wFund.token.balances campW.addr + 50 ∧
    ∃ cNew, wFundStart.campaigns[wFund.campaigns.length]? = some cNew ∧
      cNew.minimumAmount = 0 :=
  fund_entry_is_registry wFund 5 0 50 campW wFund1 9 "n" "t" "d" "i" 30 100
    wFundStart 2 rfl (by decide) rfl rfl
